import Mathlib

/-!
Verification of the performance metrics engine of the leaderboard frontend
(source: src/components/LeaderboardHistory.tsx).

JavaScript numbers are modelled by the type JsNum: either a finite value
(carried by an exact real number, idealizing away rounding and overflow) or
one of the special values NaN, Infinity, -Infinity.  The arithmetic
operations follow the IEEE-754 special-value rules used by JavaScript
(NaN propagation, signed infinities, division by zero producing infinities
or NaN); the signed zero of IEEE is conflated with zero, which is faithful
for every comparison and guard appearing in this code (`-0 === 0` in JS).
-/

noncomputable section

inductive JsNum where
  | nan : JsNum
  | inf : JsNum
  | ninf : JsNum
  | fin : ℝ → JsNum

namespace JsNum

instance : Inhabited JsNum := ⟨fin 0⟩

noncomputable instance : DecidableEq JsNum := fun _ _ => Classical.dec _

/-- JavaScript `isFinite`. -/
def isFinite : JsNum → Bool
  | fin _ => true
  | _ => false

/-- JavaScript `<` (and, with arguments swapped, `>`): NaN compares false
with everything. -/
def lt : JsNum → JsNum → Prop
  | fin a, fin b => a < b
  | fin _, inf => True
  | ninf, fin _ => True
  | ninf, inf => True
  | _, _ => False

noncomputable instance (a b : JsNum) : Decidable (lt a b) := Classical.dec _

/-- JavaScript `+` on numbers. -/
def add : JsNum → JsNum → JsNum
  | nan, _ => nan
  | _, nan => nan
  | inf, ninf => nan
  | ninf, inf => nan
  | inf, _ => inf
  | _, inf => inf
  | ninf, _ => ninf
  | _, ninf => ninf
  | fin a, fin b => fin (a + b)

/-- JavaScript `-` on numbers. -/
def sub : JsNum → JsNum → JsNum
  | nan, _ => nan
  | _, nan => nan
  | inf, inf => nan
  | ninf, ninf => nan
  | inf, _ => inf
  | ninf, _ => ninf
  | _, inf => ninf
  | _, ninf => inf
  | fin a, fin b => fin (a - b)

/-- JavaScript `*` on numbers. -/
def mul : JsNum → JsNum → JsNum
  | nan, _ => nan
  | _, nan => nan
  | inf, inf => inf
  | inf, ninf => ninf
  | ninf, inf => ninf
  | ninf, ninf => inf
  | inf, fin b => if b = 0 then nan else if 0 < b then inf else ninf
  | fin a, inf => if a = 0 then nan else if 0 < a then inf else ninf
  | ninf, fin b => if b = 0 then nan else if 0 < b then ninf else inf
  | fin a, ninf => if a = 0 then nan else if 0 < a then ninf else inf
  | fin a, fin b => fin (a * b)

/-- JavaScript `/` on numbers (zero is unsigned in this model, so a finite
nonzero value divided by zero gets the sign of the numerator). -/
def div : JsNum → JsNum → JsNum
  | nan, _ => nan
  | _, nan => nan
  | inf, inf => nan
  | inf, ninf => nan
  | ninf, inf => nan
  | ninf, ninf => nan
  | inf, fin b => if 0 ≤ b then inf else ninf
  | ninf, fin b => if 0 ≤ b then ninf else inf
  | fin _, inf => fin 0
  | fin _, ninf => fin 0
  | fin a, fin b =>
      if b = 0 then (if a = 0 then nan else if 0 < a then inf else ninf)
      else fin (a / b)

/-- JavaScript `Math.sqrt`. -/
def sqrt : JsNum → JsNum
  | nan => nan
  | inf => inf
  | ninf => nan
  | fin a => if a < 0 then nan else fin (Real.sqrt a)

/-- JavaScript `Math.pow (·, 2)`. -/
def pow2 : JsNum → JsNum
  | nan => nan
  | inf => inf
  | ninf => inf
  | fin a => fin (a ^ 2)

@[simp] theorem isFinite_fin (a : ℝ) : (fin a).isFinite = true := rfl

@[simp] theorem isFinite_nan : (nan).isFinite = false := rfl

@[simp] theorem isFinite_inf : (inf).isFinite = false := rfl

@[simp] theorem isFinite_ninf : (ninf).isFinite = false := rfl

@[simp] theorem fin_lt_fin (a b : ℝ) : lt (fin a) (fin b) ↔ a < b := Iff.rfl

@[simp] theorem not_lt_nan (x : JsNum) : ¬ lt x nan := by
  cases x <;> simp [lt]

@[simp] theorem not_inf_lt (x : JsNum) : ¬ lt inf x := by
  cases x <;> simp [lt]

@[simp] theorem not_lt_ninf (x : JsNum) : ¬ lt x ninf := by
  cases x <;> simp [lt]

@[simp] theorem fin_lt_inf (a : ℝ) : lt (fin a) inf := trivial

@[simp] theorem fin_add_fin (a b : ℝ) : add (fin a) (fin b) = fin (a + b) := rfl

@[simp] theorem fin_sub_fin (a b : ℝ) : sub (fin a) (fin b) = fin (a - b) := rfl

@[simp] theorem fin_mul_fin (a b : ℝ) : mul (fin a) (fin b) = fin (a * b) := rfl

@[simp] theorem fin_pow2 (a : ℝ) : pow2 (fin a) = fin (a ^ 2) := rfl

theorem fin_div_fin (a b : ℝ) :
    div (fin a) (fin b) =
      if b = 0 then (if a = 0 then nan else if 0 < a then inf else ninf)
      else fin (a / b) := rfl

@[simp] theorem fin_div_fin_of_ne (a : ℝ) {b : ℝ} (h : b ≠ 0) :
    div (fin a) (fin b) = fin (a / b) := by
  rw [fin_div_fin, if_neg h]

@[simp] theorem sqrt_fin_of_nonneg {a : ℝ} (h : 0 ≤ a) :
    sqrt (fin a) = fin (Real.sqrt a) := by
  simp [sqrt, not_lt.mpr h]

@[simp] theorem inf_mul_fin_pos {b : ℝ} (hb : 0 < b) : mul inf (fin b) = inf := by
  simp [mul, hb, hb.ne']

end JsNum

/-- A raw point of the `/leaderboard/history` payload. -/
structure HistoryPoint where
  timestamp : String
  value : JsNum

/-- The metrics record produced per team (CalculatedMetrics in the source). -/
structure CalculatedMetrics where
  team_id : String
  total_return : JsNum
  max_drawdown : JsNum
  sharpe_ratio : JsNum
  sortino_ratio : JsNum
  calmar_ratio : JsNum
  current_value : JsNum
  starting_value : JsNum

/-- The idiom `arr.length > 0 ? arr[arr.length - 1] : 0` of the source. -/
def lastValueD (l : List JsNum) : JsNum := l.getLast?.getD (JsNum.fin 0)

/-- The idiom `arr.length > 0 ? arr[0] : 0` of the source. -/
def headValueD (l : List JsNum) : JsNum := l.head?.getD (JsNum.fin 0)

/-- calculateReturns: walks adjacent pairs, emitting the relative change when
the previous value is nonzero, both values are finite and the ratio is
finite; offending pairs are skipped. -/
def calculateReturns : List JsNum → List JsNum
  | [] => []
  | [_] => []
  | u :: v :: t =>
      (if u ≠ JsNum.fin 0 ∧ v.isFinite = true ∧ u.isFinite = true then
        (if ((v.sub u).div u).isFinite = true then [(v.sub u).div u] else [])
      else []) ++ calculateReturns (v :: t)

/-- The loop of calculateMaxDrawdown: running peak and running max drawdown. -/
def mddLoop : List JsNum → JsNum → JsNum → JsNum
  | [], _, maxDD => maxDD
  | v :: rest, peak, maxDD =>
      let peak2 := if JsNum.lt peak v then v else peak
      let dd := (peak2.sub v).div peak2
      mddLoop rest peak2 (if JsNum.lt maxDD dd then dd else maxDD)

/-- calculateMaxDrawdown: peak starts at the first value, the result is the
largest drawdown fraction times 100. -/
def calculateMaxDrawdown (values : List JsNum) : JsNum :=
  match values with
  | [] => JsNum.fin 0
  | v :: t => (mddLoop (v :: t) v (JsNum.fin 0)).mul (JsNum.fin 100)

/-- calculateSharpeRatio (risk-free rate 0, annualized by 252 trading days). -/
def calculateSharpeRatio (returns : List JsNum) : JsNum :=
  if returns.length < 2 then JsNum.fin 0 else
  let mean := (returns.foldl JsNum.add (JsNum.fin 0)).div
    (JsNum.fin (returns.length : ℝ))
  let variance := (returns.foldl (fun s r => s.add ((r.sub mean).pow2))
    (JsNum.fin 0)).div (JsNum.fin ((returns.length : ℝ) - 1))
  let stdDev := variance.sqrt
  if stdDev = JsNum.fin 0 then JsNum.fin 0 else
  (mean.mul (JsNum.fin 252)).div (stdDev.mul (JsNum.sqrt (JsNum.fin 252)))

/-- The filter `returns.filter(r => r < 0)` of calculateSortinoRatio. -/
def downsideFilter : List JsNum → List JsNum
  | [] => []
  | r :: t =>
      if JsNum.lt r (JsNum.fin 0) then r :: downsideFilter t
      else downsideFilter t

/-- calculateSortinoRatio (downside deviation against zero, annualized). -/
def calculateSortinoRatio (returns : List JsNum) : JsNum :=
  if returns.length < 2 then JsNum.fin 0 else
  let mean := (returns.foldl JsNum.add (JsNum.fin 0)).div
    (JsNum.fin (returns.length : ℝ))
  let downside := downsideFilter returns
  if downside.length = 0 then JsNum.fin 0 else
  let downsideVariance := (downside.foldl (fun s r => s.add r.pow2)
    (JsNum.fin 0)).div (JsNum.fin (downside.length : ℝ))
  let downsideStdDev := downsideVariance.sqrt
  if downsideStdDev = JsNum.fin 0 then JsNum.fin 0 else
  (mean.mul (JsNum.fin 252)).div
    (downsideStdDev.mul (JsNum.sqrt (JsNum.fin 252)))

/-- calculateCalmarRatio. -/
def calculateCalmarRatio (totalReturn maxDrawdown : JsNum) : JsNum :=
  if maxDrawdown = JsNum.fin 0 then JsNum.fin 0
  else (totalReturn.div (JsNum.fin 100)).div (maxDrawdown.div (JsNum.fin 100))

/-- calculateTeamMetrics: the per-team aggregator.  The `try/catch` of the
source cannot fire in this model (every operation is total), so it is not
represented. -/
def calculateTeamMetrics (teamId : String) (history : List HistoryPoint) :
    CalculatedMetrics :=
  if history.length < 2 then
    ⟨teamId, JsNum.fin 0, JsNum.fin 0, JsNum.fin 0, JsNum.fin 0, JsNum.fin 0,
      lastValueD (history.map HistoryPoint.value),
      headValueD (history.map HistoryPoint.value)⟩
  else
    let values := (history.map HistoryPoint.value).filter JsNum.isFinite
    if values.length < 2 then
      ⟨teamId, JsNum.fin 0, JsNum.fin 0, JsNum.fin 0, JsNum.fin 0, JsNum.fin 0,
        lastValueD values, headValueD values⟩
    else
      let starting := headValueD values
      let current := lastValueD values
      let totalReturn :=
        if starting ≠ JsNum.fin 0 then
          ((current.sub starting).div starting).mul (JsNum.fin 100)
        else JsNum.fin 0
      let returns := calculateReturns values
      let maxDrawdown := calculateMaxDrawdown values
      let sharpeRatio := calculateSharpeRatio returns
      let sortinoRatio := calculateSortinoRatio returns
      let calmarRatio := calculateCalmarRatio totalReturn maxDrawdown
      ⟨teamId,
        if totalReturn.isFinite = true then totalReturn else JsNum.fin 0,
        if maxDrawdown.isFinite = true then maxDrawdown else JsNum.fin 0,
        if sharpeRatio.isFinite = true then sharpeRatio else JsNum.fin 0,
        if sortinoRatio.isFinite = true then sortinoRatio else JsNum.fin 0,
        if calmarRatio.isFinite = true then calmarRatio else JsNum.fin 0,
        current, starting⟩

/-! ### Specification-side definitions

These follow the wording of the specification (means, Bessel-corrected
variance, downside deviation against zero, the returns filter), to be
compared with the source-side functions above. -/

/-- The returns sequence as the specification words it: for each adjacent
pair emit the relative change only when the previous value is nonzero, both
values are finite and the ratio is finite. -/
def returnsSpec : List JsNum → List JsNum
  | [] => []
  | [_] => []
  | u :: v :: t =>
      (if u ≠ JsNum.fin 0 ∧ u.isFinite = true ∧ v.isFinite = true ∧
          ((v.sub u).div u).isFinite = true
        then [(v.sub u).div u] else []) ++ returnsSpec (v :: t)

/-- Arithmetic mean of a returns sequence. -/
def specMean (l : List ℝ) : ℝ := l.sum / (l.length : ℝ)

/-- Bessel-corrected sample variance of a returns sequence. -/
def specVariance (l : List ℝ) : ℝ :=
  ((l.map fun r => (r - specMean l) ^ 2).sum) / ((l.length : ℝ) - 1)

/-- Sample standard deviation. -/
def specStdDev (l : List ℝ) : ℝ := Real.sqrt (specVariance l)

/-- The Sharpe formula of the specification: annualized mean over
annualized standard deviation. -/
def specSharpe (l : List ℝ) : ℝ :=
  (specMean l * 252) / (specStdDev l * Real.sqrt 252)

/-- The negative elements of a real sequence, in order. -/
def negFilter : List ℝ → List ℝ
  | [] => []
  | x :: t => if x < 0 then x :: negFilter t else negFilter t

/-- Population downside deviation computed against zero over the negative
returns only. -/
def downsideDev (l : List ℝ) : ℝ :=
  Real.sqrt (((negFilter l).map fun r => r ^ 2).sum / ((negFilter l).length : ℝ))

/-- The Sortino formula of the specification: annualized mean over
annualized downside deviation. -/
def specSortino (l : List ℝ) : ℝ :=
  (specMean l * 252) / (downsideDev l * Real.sqrt 252)

/-! ### Bridge lemmas between the JsNum computations and real arithmetic -/

theorem foldl_add_fin : ∀ (l : List ℝ) (a : ℝ),
    (l.map JsNum.fin).foldl JsNum.add (JsNum.fin a) = JsNum.fin (a + l.sum)
  | [], a => by simp
  | x :: t, a => by
      simp only [List.map_cons, List.foldl_cons, JsNum.fin_add_fin]
      rw [foldl_add_fin t (a + x), List.sum_cons, add_assoc]

theorem foldl_sq_fin (m : ℝ) : ∀ (l : List ℝ) (a : ℝ),
    (l.map JsNum.fin).foldl (fun s r => s.add ((r.sub (JsNum.fin m)).pow2))
        (JsNum.fin a)
      = JsNum.fin (a + ((l.map fun x => (x - m) ^ 2).sum))
  | [], a => by simp
  | x :: t, a => by
      simp only [List.map_cons, List.foldl_cons, JsNum.fin_sub_fin,
        JsNum.fin_pow2, JsNum.fin_add_fin]
      rw [foldl_sq_fin m t (a + (x - m) ^ 2), List.sum_cons, add_assoc]

theorem foldl_pow2_fin : ∀ (l : List ℝ) (a : ℝ),
    (l.map JsNum.fin).foldl (fun s r => s.add r.pow2) (JsNum.fin a)
      = JsNum.fin (a + ((l.map fun x => x ^ 2).sum))
  | [], a => by simp
  | x :: t, a => by
      simp only [List.map_cons, List.foldl_cons, JsNum.fin_pow2,
        JsNum.fin_add_fin]
      rw [foldl_pow2_fin t (a + x ^ 2), List.sum_cons, add_assoc]

theorem downsideFilter_map (l : List ℝ) :
    downsideFilter (l.map JsNum.fin) = (negFilter l).map JsNum.fin := by
  induction l with
  | nil => rfl
  | cons x t ih =>
      by_cases hx : x < 0 <;>
        simp [downsideFilter, negFilter, hx, ih]

theorem mem_negFilter (l : List ℝ) (x : ℝ) :
    x ∈ negFilter l ↔ x ∈ l ∧ x < 0 := by
  induction l with
  | nil => simp [negFilter]
  | cons a t ih =>
      by_cases ha : a < 0
      · rw [negFilter, if_pos ha]
        simp only [List.mem_cons, ih]
        constructor
        · rintro (rfl | ⟨hm, hlt⟩)
          · exact ⟨Or.inl rfl, ha⟩
          · exact ⟨Or.inr hm, hlt⟩
        · rintro ⟨rfl | hm, hlt⟩
          · exact Or.inl rfl
          · exact Or.inr ⟨hm, hlt⟩
      · rw [negFilter, if_neg ha]
        simp only [List.mem_cons, ih]
        constructor
        · rintro ⟨hm, hlt⟩
          exact ⟨Or.inr hm, hlt⟩
        · rintro ⟨rfl | hm, hlt⟩
          · exact absurd hlt ha
          · exact ⟨hm, hlt⟩

theorem negFilter_eq_nil (l : List ℝ) (h : ∀ x ∈ l, 0 ≤ x) :
    negFilter l = [] := by
  induction l with
  | nil => rfl
  | cons a t ih =>
      rw [negFilter, if_neg (not_lt.mpr (h a (List.mem_cons_self a t)))]
      exact ih fun x hx => h x (List.mem_cons_of_mem _ hx)

/-! ### Real-valued list helpers -/

theorem list_sum_pos_of_exists (l : List ℝ) (h0 : ∀ x ∈ l, 0 ≤ x)
    (hx : ∃ x ∈ l, 0 < x) : 0 < l.sum := by
  induction l with
  | nil => simp at hx
  | cons a t ih =>
      rw [List.sum_cons]
      rcases hx with ⟨x, hmem, hxpos⟩
      rcases List.mem_cons.mp hmem with rfl | hmt
      · have ht : (0 : ℝ) ≤ t.sum :=
          List.sum_nonneg fun y hy => h0 y (List.mem_cons_of_mem _ hy)
        linarith
      · have ha : (0 : ℝ) ≤ a := h0 a (List.mem_cons_self a t)
        have ht := ih (fun y hy => h0 y (List.mem_cons_of_mem _ hy))
          ⟨x, hmt, hxpos⟩
        linarith

theorem list_sum_nonpos (l : List ℝ) (h : ∀ x ∈ l, x ≤ 0) : l.sum ≤ 0 := by
  induction l with
  | nil => simp
  | cons a t ih =>
      rw [List.sum_cons]
      have ha := h a (List.mem_cons_self a t)
      have ht := ih fun x hx => h x (List.mem_cons_of_mem _ hx)
      linarith

theorem list_sum_neg (l : List ℝ) (h : ∀ x ∈ l, x < 0) (hne : l ≠ []) :
    l.sum < 0 := by
  cases l with
  | nil => exact absurd rfl hne
  | cons a t =>
      rw [List.sum_cons]
      have ha := h a (List.mem_cons_self a t)
      have ht := list_sum_nonpos t fun x hx => (h x (List.mem_cons_of_mem _ hx)).le
      linarith

theorem headValueD_mem_or (l : List JsNum) :
    headValueD l = JsNum.fin 0 ∨ headValueD l ∈ l := by
  cases l with
  | nil => exact Or.inl rfl
  | cons a t => exact Or.inr (by simp [headValueD])

theorem lastValueD_mem_or : ∀ l : List JsNum,
    lastValueD l = JsNum.fin 0 ∨ lastValueD l ∈ l
  | [] => Or.inl rfl
  | [a] => Or.inr (by simp [lastValueD])
  | a :: b :: t => by
      have h := lastValueD_mem_or (b :: t)
      rw [lastValueD] at h ⊢
      rw [List.getLast?_cons_cons]
      rcases h with h | h
      · exact Or.inl h
      · exact Or.inr (List.mem_cons_of_mem _ h)

/-! ### Evaluation of the ratio calculators on finite inputs -/

theorem sharpe_eval (l : List ℝ) (h2 : 2 ≤ l.length) :
    calculateSharpeRatio (l.map JsNum.fin) =
      if specStdDev l = 0 then JsNum.fin 0 else JsNum.fin (specSharpe l) := by
  have hlen : (l.map JsNum.fin).length = l.length := List.length_map _ _
  have hl2 : (2 : ℝ) ≤ (l.length : ℝ) := by exact_mod_cast h2
  have hl0 : (l.length : ℝ) ≠ 0 := by linarith
  have hl1 : (l.length : ℝ) - 1 ≠ 0 := by linarith
  have hvnum : (0 : ℝ) ≤ (l.map fun x => (x - specMean l) ^ 2).sum := by
    apply List.sum_nonneg
    intro y hy
    rcases List.mem_map.mp hy with ⟨x, _, rfl⟩
    positivity
  have hv : 0 ≤ specVariance l := div_nonneg hvnum (by linarith)
  simp only [calculateSharpeRatio, hlen]
  rw [if_neg (by omega)]
  rw [foldl_add_fin, zero_add, JsNum.fin_div_fin_of_ne _ hl0]
  rw [show l.sum / (l.length : ℝ) = specMean l from rfl]
  rw [foldl_sq_fin, zero_add, JsNum.fin_div_fin_of_ne _ hl1]
  rw [show (l.map fun x => (x - specMean l) ^ 2).sum / ((l.length : ℝ) - 1)
      = specVariance l from rfl]
  rw [JsNum.sqrt_fin_of_nonneg hv]
  rw [show Real.sqrt (specVariance l) = specStdDev l from rfl]
  by_cases hsd : specStdDev l = 0
  · rw [if_pos (by rw [hsd]), if_pos hsd]
  · rw [if_neg (fun h => hsd (JsNum.fin.inj h)), if_neg hsd]
    rw [JsNum.sqrt_fin_of_nonneg (by norm_num : (0 : ℝ) ≤ 252)]
    rw [JsNum.fin_mul_fin, JsNum.fin_mul_fin]
    have hden : specStdDev l * Real.sqrt 252 ≠ 0 :=
      mul_ne_zero hsd (Real.sqrt_pos.mpr (by norm_num)).ne'
    rw [JsNum.fin_div_fin_of_ne _ hden]
    rfl

theorem sortino_eval (l : List ℝ) (h2 : 2 ≤ l.length)
    (hne : negFilter l ≠ []) :
    calculateSortinoRatio (l.map JsNum.fin) =
      if downsideDev l = 0 then JsNum.fin 0 else JsNum.fin (specSortino l) := by
  have hlen : (l.map JsNum.fin).length = l.length := List.length_map _ _
  have hl2 : (2 : ℝ) ≤ (l.length : ℝ) := by exact_mod_cast h2
  have hl0 : (l.length : ℝ) ≠ 0 := by linarith
  have hd0 : (negFilter l).length ≠ 0 := fun h => hne (List.length_eq_zero.mp h)
  have hdR : ((negFilter l).length : ℝ) ≠ 0 := Nat.cast_ne_zero.mpr hd0
  have hsq : (0 : ℝ) ≤ ((negFilter l).map fun x => x ^ 2).sum := by
    apply List.sum_nonneg
    intro y hy
    rcases List.mem_map.mp hy with ⟨x, _, rfl⟩
    positivity
  have hdv : (0 : ℝ) ≤
      ((negFilter l).map fun x => x ^ 2).sum / ((negFilter l).length : ℝ) :=
    div_nonneg hsq (Nat.cast_nonneg _)
  simp only [calculateSortinoRatio, hlen, downsideFilter_map, List.length_map]
  rw [if_neg (by omega), if_neg hd0]
  rw [foldl_add_fin, zero_add, JsNum.fin_div_fin_of_ne _ hl0]
  rw [show l.sum / (l.length : ℝ) = specMean l from rfl]
  rw [foldl_pow2_fin, zero_add, JsNum.fin_div_fin_of_ne _ hdR]
  rw [JsNum.sqrt_fin_of_nonneg hdv]
  rw [show Real.sqrt (((negFilter l).map fun x => x ^ 2).sum /
      ((negFilter l).length : ℝ)) = downsideDev l from rfl]
  by_cases hsd : downsideDev l = 0
  · rw [if_pos (by rw [hsd]), if_pos hsd]
  · rw [if_neg (fun h => hsd (JsNum.fin.inj h)), if_neg hsd]
    rw [JsNum.sqrt_fin_of_nonneg (by norm_num : (0 : ℝ) ≤ 252)]
    rw [JsNum.fin_mul_fin, JsNum.fin_mul_fin]
    have hden : downsideDev l * Real.sqrt 252 ≠ 0 :=
      mul_ne_zero hsd (Real.sqrt_pos.mpr (by norm_num)).ne'
    rw [JsNum.fin_div_fin_of_ne _ hden]
    rfl

theorem sortino_of_no_downside (l : List ℝ) (h : negFilter l = []) :
    calculateSortinoRatio (l.map JsNum.fin) = JsNum.fin 0 := by
  by_cases h2 : (l.map JsNum.fin).length < 2
  · simp only [calculateSortinoRatio]
    rw [if_pos h2]
  · simp only [calculateSortinoRatio, downsideFilter_map, h]
    rw [if_neg h2]
    simp

/-! ### The drawdown loop -/

theorem mddLoop_monotone : ∀ (l : List ℝ) (p : ℝ),
    List.Chain' (fun a b => a ≤ b) l → (∀ x ∈ l.head?, p ≤ x) →
    mddLoop (l.map JsNum.fin) (JsNum.fin p) (JsNum.fin 0) = JsNum.fin 0
  | [], _, _, _ => rfl
  | v :: t, p, hch, hp => by
      have hpv : p ≤ v := hp v rfl
      rcases List.chain'_cons'.mp hch with ⟨hhd, htl⟩
      simp only [List.map_cons, mddLoop]
      have hpk : (if JsNum.lt (JsNum.fin p) (JsNum.fin v) then JsNum.fin v
          else JsNum.fin p) = JsNum.fin v := by
        by_cases h : p < v
        · rw [if_pos ((JsNum.fin_lt_fin p v).mpr h)]
        · rw [if_neg (fun hc => h ((JsNum.fin_lt_fin p v).mp hc))]
          rw [le_antisymm hpv (not_lt.mp h)]
      rw [hpk, JsNum.fin_sub_fin, sub_self]
      by_cases hv : v = 0
      · subst hv
        rw [show JsNum.div (JsNum.fin 0) (JsNum.fin 0) = JsNum.nan from by
          rw [JsNum.fin_div_fin]; simp]
        rw [if_neg (JsNum.not_lt_nan _)]
        exact mddLoop_monotone t 0 htl hhd
      · rw [JsNum.fin_div_fin_of_ne _ hv, zero_div]
        rw [if_neg (fun hc => lt_irrefl (0 : ℝ) ((JsNum.fin_lt_fin 0 0).mp hc))]
        exact mddLoop_monotone t v htl hhd

/-- The running maximum drawdown is always either +Infinity or a
non-negative finite value. -/
def NNI (x : JsNum) : Prop :=
  x = JsNum.inf ∨ ∃ a : ℝ, 0 ≤ a ∧ x = JsNum.fin a

theorem NNI_update (maxDD dd : JsNum) (h : NNI maxDD) :
    NNI (if JsNum.lt maxDD dd then dd else maxDD) := by
  rcases h with rfl | ⟨a, ha, rfl⟩
  · rw [if_neg (JsNum.not_inf_lt _)]
    exact Or.inl rfl
  · cases dd with
    | nan =>
        rw [if_neg (JsNum.not_lt_nan _)]
        exact Or.inr ⟨a, ha, rfl⟩
    | inf =>
        rw [if_pos (JsNum.fin_lt_inf a)]
        exact Or.inl rfl
    | ninf =>
        rw [if_neg (JsNum.not_lt_ninf _)]
        exact Or.inr ⟨a, ha, rfl⟩
    | fin b =>
        by_cases hab : a < b
        · rw [if_pos ((JsNum.fin_lt_fin a b).mpr hab)]
          exact Or.inr ⟨b, (ha.trans hab.le), rfl⟩
        · rw [if_neg (fun hc => hab ((JsNum.fin_lt_fin a b).mp hc))]
          exact Or.inr ⟨a, ha, rfl⟩

theorem mddLoop_NNI : ∀ (l : List JsNum) (peak maxDD : JsNum),
    NNI maxDD → NNI (mddLoop l peak maxDD)
  | [], _, _, h => h
  | v :: t, peak, maxDD, h => by
      simp only [mddLoop]
      exact mddLoop_NNI t _ _ (NNI_update _ _ h)

theorem calculateMaxDrawdown_NNI (values : List JsNum) :
    calculateMaxDrawdown values = JsNum.inf ∨
      ∃ a : ℝ, 0 ≤ a ∧ calculateMaxDrawdown values = JsNum.fin a := by
  cases values with
  | nil => exact Or.inr ⟨0, le_refl 0, rfl⟩
  | cons v t =>
      have h := mddLoop_NNI (v :: t) v (JsNum.fin 0) (Or.inr ⟨0, le_refl 0, rfl⟩)
      rcases h with h | ⟨a, ha, h⟩
      · left
        simp only [calculateMaxDrawdown]
        rw [h]
        exact JsNum.inf_mul_fin_pos (by norm_num)
      · right
        refine ⟨a * 100, mul_nonneg ha (by norm_num), ?_⟩
        simp only [calculateMaxDrawdown]
        rw [h, JsNum.fin_mul_fin]

/-! ### Positivity of variance and downside deviation -/

theorem exists_ne_mean (l : List ℝ) (h : ∃ a ∈ l, ∃ b ∈ l, a ≠ b) :
    ∃ x ∈ l, x ≠ specMean l := by
  rcases h with ⟨a, ha, b, hb, hab⟩
  by_cases hA : a = specMean l
  · exact ⟨b, hb, fun hB => hab (hA.trans hB.symm)⟩
  · exact ⟨a, ha, hA⟩

theorem specVariance_pos (l : List ℝ) (h2 : 2 ≤ l.length)
    (h : ∃ a ∈ l, ∃ b ∈ l, a ≠ b) : 0 < specVariance l := by
  obtain ⟨x, hx, hxm⟩ := exists_ne_mean l h
  have hnum : 0 < (l.map fun r => (r - specMean l) ^ 2).sum := by
    apply list_sum_pos_of_exists
    · intro y hy
      rcases List.mem_map.mp hy with ⟨z, _, rfl⟩
      positivity
    · exact ⟨(x - specMean l) ^ 2, List.mem_map_of_mem _ hx,
        pow_two_pos_of_ne_zero (sub_ne_zero.mpr hxm)⟩
  have hl2 : (2 : ℝ) ≤ (l.length : ℝ) := by exact_mod_cast h2
  exact div_pos hnum (by linarith)

theorem downsideDev_pos (l : List ℝ) (hne : negFilter l ≠ []) :
    0 < downsideDev l := by
  have hsum : 0 < ((negFilter l).map fun r => r ^ 2).sum := by
    apply list_sum_pos_of_exists
    · intro y hy
      rcases List.mem_map.mp hy with ⟨z, _, rfl⟩
      positivity
    · obtain ⟨x, hx⟩ := List.exists_mem_of_ne_nil (negFilter l) hne
      have hxneg : x < 0 := ((mem_negFilter l x).mp hx).2
      exact ⟨x ^ 2, List.mem_map_of_mem _ hx,
        pow_two_pos_of_ne_zero hxneg.ne⟩
  have hlen : (0 : ℝ) < ((negFilter l).length : ℝ) := by
    have := List.length_pos.mpr hne
    exact_mod_cast this
  exact Real.sqrt_pos.mpr (div_pos hsum hlen)

/-! ### Finiteness of the record fields -/

theorem guard_isFinite (x : JsNum) :
    (if x.isFinite = true then x else JsNum.fin 0).isFinite = true := by
  by_cases hx : x.isFinite = true
  · rw [if_pos hx]
    exact hx
  · rw [if_neg hx]
    rfl

theorem mem_filter_finite {x : JsNum} {l : List JsNum}
    (h : x ∈ l.filter JsNum.isFinite) : x.isFinite = true :=
  (List.mem_filter.mp h).2

theorem headValueD_filter_finite (l : List JsNum) :
    (headValueD (l.filter JsNum.isFinite)).isFinite = true := by
  rcases headValueD_mem_or (l.filter JsNum.isFinite) with h | h
  · rw [h]
    rfl
  · exact mem_filter_finite h

theorem lastValueD_filter_finite (l : List JsNum) :
    (lastValueD (l.filter JsNum.isFinite)).isFinite = true := by
  rcases lastValueD_mem_or (l.filter JsNum.isFinite) with h | h
  · rw [h]
    rfl
  · exact mem_filter_finite h

/-! ### Sample inputs used by witnesses and counterexamples -/

/-- A sample entity id. -/
def entityA : String := "A"

/-- A sample timestamp. -/
def ts0 : String := "t0"

/-- Another sample timestamp. -/
def ts1 : String := "t1"

/-! ### Claims -/

/-- C1, counterexample: on the one-point series whose value is NaN the
short-circuit branch copies the raw value, so the numeric field
current_value of the returned record is NaN, not finite and not replaced
by 0. -/
theorem metricsRecordFinite_cx :
    (calculateTeamMetrics entityA [⟨ts0, JsNum.nan⟩]).current_value
        = JsNum.nan ∧
      JsNum.nan.isFinite = false := by
  constructor
  · simp only [calculateTeamMetrics]
    rw [if_pos (by norm_num)]
    simp [lastValueD]
  · rfl

/-- C1, amended: for every entity id and every input series the fields
total_return, max_drawdown, sharpe_ratio, sortino_ratio and calmar_ratio of
the record returned by calculateTeamMetrics are always finite (a non-finite
value is replaced by 0), and current_value and starting_value are finite
whenever the raw series has at least 2 points; only the short-circuit for
fewer than 2 raw points can expose a non-finite current or starting
value. -/
theorem metricsRecordFinite_amended (teamId : String)
    (history : List HistoryPoint) :
    (calculateTeamMetrics teamId history).total_return.isFinite = true ∧
    (calculateTeamMetrics teamId history).max_drawdown.isFinite = true ∧
    (calculateTeamMetrics teamId history).sharpe_ratio.isFinite = true ∧
    (calculateTeamMetrics teamId history).sortino_ratio.isFinite = true ∧
    (calculateTeamMetrics teamId history).calmar_ratio.isFinite = true ∧
    (2 ≤ history.length →
      (calculateTeamMetrics teamId history).current_value.isFinite = true ∧
      (calculateTeamMetrics teamId history).starting_value.isFinite = true) := by
  simp only [calculateTeamMetrics]
  by_cases hA : history.length < 2
  · rw [if_pos hA]
    exact ⟨rfl, rfl, rfl, rfl, rfl, fun h => absurd h (by omega)⟩
  · rw [if_neg hA]
    by_cases hB :
        ((history.map HistoryPoint.value).filter JsNum.isFinite).length < 2
    · rw [if_pos hB]
      exact ⟨rfl, rfl, rfl, rfl, rfl, fun _ =>
        ⟨lastValueD_filter_finite _, headValueD_filter_finite _⟩⟩
    · rw [if_neg hB]
      exact ⟨guard_isFinite _, guard_isFinite _, guard_isFinite _,
        guard_isFinite _, guard_isFinite _, fun _ =>
        ⟨lastValueD_filter_finite _, headValueD_filter_finite _⟩⟩

/-- C1, witness for the amended statement at a concrete two-point series. -/
theorem metricsRecordFinite_amended_w :
    (calculateTeamMetrics entityA
        [⟨ts0, JsNum.fin 100⟩, ⟨ts1, JsNum.fin 80⟩]).total_return.isFinite
      = true ∧
    (calculateTeamMetrics entityA
        [⟨ts0, JsNum.fin 100⟩, ⟨ts1, JsNum.fin 80⟩]).current_value.isFinite
      = true := by
  refine ⟨(metricsRecordFinite_amended entityA _).1, ?_⟩
  exact ((metricsRecordFinite_amended entityA
    [⟨ts0, JsNum.fin 100⟩, ⟨ts1, JsNum.fin 80⟩]).2.2.2.2.2 (by norm_num)).1

/-- C2: with an absent series or fewer than 2 raw points,
calculateTeamMetrics returns the record with all ratio and return fields 0,
current_value the last raw value when a point exists (else 0) and
starting_value the first raw value when a point exists (else 0). -/
theorem shortSeriesDefault_thm (teamId : String) (history : List HistoryPoint)
    (h : history.length < 2) :
    calculateTeamMetrics teamId history =
      ⟨teamId, JsNum.fin 0, JsNum.fin 0, JsNum.fin 0, JsNum.fin 0, JsNum.fin 0,
        ((history.getLast?).map HistoryPoint.value).getD (JsNum.fin 0),
        ((history.head?).map HistoryPoint.value).getD (JsNum.fin 0)⟩ := by
  simp only [calculateTeamMetrics]
  rw [if_pos h]
  congr 1
  · rw [lastValueD, List.getLast?_map]
  · rw [headValueD, List.head?_map]

/-- C2, witness: the empty series yields the all-zero record. -/
theorem shortSeriesDefault_w :
    calculateTeamMetrics entityA [] =
      ⟨entityA, JsNum.fin 0, JsNum.fin 0, JsNum.fin 0, JsNum.fin 0,
        JsNum.fin 0, JsNum.fin 0, JsNum.fin 0⟩ := by
  rw [shortSeriesDefault_thm entityA [] (by norm_num)]
  rfl

/-- C3: calculateReturns emits, in order, for each adjacent pair the
relative change, exactly when the previous value is nonzero, both values
are finite and the ratio is finite; offending pairs are skipped (not
replaced by 0), and fewer than 2 values give the empty sequence. -/
theorem returnsSpec_thm : ∀ values : List JsNum,
    calculateReturns values = returnsSpec values := by
  intro values
  induction values with
  | nil => rfl
  | cons u t ih =>
      cases t with
      | nil => rfl
      | cons v t2 =>
          simp only [calculateReturns, returnsSpec]
          rw [ih]
          congr 1
          by_cases h1 : u = JsNum.fin 0 <;>
            by_cases h2 : u.isFinite = true <;>
              by_cases h3 : v.isFinite = true <;>
                by_cases h4 : ((v.sub u).div u).isFinite = true <;>
                  simp [h1, h2, h3, h4]

/-- C4, counterexample: the constant positive returns sequence [1, 1] has
zero variance, so calculateSharpeRatio returns 0, which is not strictly
positive; the sign-alignment claim fails as stated. -/
theorem sharpeSign_cx :
    ¬ ∀ l : List JsNum, (∀ x ∈ l, JsNum.lt (JsNum.fin 0) x) →
      JsNum.lt (JsNum.fin 0) (calculateSharpeRatio l) := by
  have hm : specMean [(1 : ℝ), 1] = 1 := by
    norm_num [specMean]
  have hv : specVariance [(1 : ℝ), 1] = 0 := by
    simp [specVariance, hm]
  have hsharpe : calculateSharpeRatio [JsNum.fin 1, JsNum.fin 1]
      = JsNum.fin 0 := by
    rw [show [JsNum.fin 1, JsNum.fin 1] = [(1 : ℝ), 1].map JsNum.fin from rfl,
      sharpe_eval [(1 : ℝ), 1] (by norm_num)]
    rw [if_pos (by rw [specStdDev, hv, Real.sqrt_zero])]
  intro hall
  have h := hall [JsNum.fin 1, JsNum.fin 1] ?_
  · rw [hsharpe] at h
    exact absurd ((JsNum.fin_lt_fin 0 0).mp h) (lt_irrefl 0)
  · intro x hx
    rcases List.mem_cons.mp hx with rfl | hx
    · exact (JsNum.fin_lt_fin 0 1).mpr (by norm_num)
    · rcases List.mem_cons.mp hx with rfl | hx
      · exact (JsNum.fin_lt_fin 0 1).mpr (by norm_num)
      · simp at hx

/-- C4, amended: for every returns sequence of finite values with at least
2 elements and at least two distinct elements, calculateSharpeRatio is
strictly positive when every element is positive and strictly negative
when every element is negative. -/
theorem sharpeSign_amended (l : List ℝ) (h2 : 2 ≤ l.length)
    (hnc : ∃ a ∈ l, ∃ b ∈ l, a ≠ b) :
    ((∀ x ∈ l, 0 < x) →
      JsNum.lt (JsNum.fin 0) (calculateSharpeRatio (l.map JsNum.fin))) ∧
    ((∀ x ∈ l, x < 0) →
      JsNum.lt (calculateSharpeRatio (l.map JsNum.fin)) (JsNum.fin 0)) := by
  have hvar := specVariance_pos l h2 hnc
  have hsd : 0 < specStdDev l := Real.sqrt_pos.mpr hvar
  have hform := sharpe_eval l h2
  rw [if_neg hsd.ne'] at hform
  have hlen0 : l ≠ [] := by
    intro h
    rw [h] at h2
    simp at h2
  have hlpos : (0 : ℝ) < (l.length : ℝ) := by
    have h0 : 0 < l.length := by omega
    exact_mod_cast h0
  have hden : 0 < specStdDev l * Real.sqrt 252 :=
    mul_pos hsd (Real.sqrt_pos.mpr (by norm_num))
  constructor
  · intro hpos
    rw [hform]
    refine (JsNum.fin_lt_fin 0 _).mpr ?_
    have hsum : 0 < l.sum := List.sum_pos l hpos hlen0
    have hmean : 0 < specMean l := div_pos hsum hlpos
    exact div_pos (mul_pos hmean (by norm_num)) hden
  · intro hneg
    rw [hform]
    refine (JsNum.fin_lt_fin _ 0).mpr ?_
    have hsum : l.sum < 0 := list_sum_neg l hneg hlen0
    have hmean : specMean l < 0 := div_neg_of_neg_of_pos hsum hlpos
    exact div_neg_of_neg_of_pos (mul_neg_of_neg_of_pos hmean (by norm_num)) hden

/-- C4, witness for the amended statement at the sequence [1, 2]. -/
theorem sharpeSign_amended_w :
    JsNum.lt (JsNum.fin 0)
      (calculateSharpeRatio ([(1 : ℝ), 2].map JsNum.fin)) := by
  refine (sharpeSign_amended [(1 : ℝ), 2] (by norm_num)
    ⟨1, by simp, 2, by simp, by norm_num⟩).1 ?_
  intro x hx
  rcases List.mem_cons.mp hx with rfl | hx
  · norm_num
  · rcases List.mem_cons.mp hx with rfl | hx
    · norm_num
    · simp at hx

/-- C5: on a finite returns sequence calculateSharpeRatio returns 0 when
there are fewer than 2 elements or the Bessel-corrected sample standard
deviation is 0, and otherwise returns (mean * 252) divided by
(stddev * sqrt 252). -/
theorem sharpeFormula_thm (l : List ℝ) :
    (l.length < 2 → calculateSharpeRatio (l.map JsNum.fin) = JsNum.fin 0) ∧
    (2 ≤ l.length → specStdDev l = 0 →
      calculateSharpeRatio (l.map JsNum.fin) = JsNum.fin 0) ∧
    (2 ≤ l.length → specStdDev l ≠ 0 →
      calculateSharpeRatio (l.map JsNum.fin) = JsNum.fin (specSharpe l)) := by
  refine ⟨?_, ?_, ?_⟩
  · intro h
    simp only [calculateSharpeRatio, List.length_map]
    rw [if_pos h]
  · intro h2 hsd
    rw [sharpe_eval l h2, if_pos hsd]
  · intro h2 hsd
    rw [sharpe_eval l h2, if_neg hsd]

/-- C5, witness at the sequence [0, 1]. -/
theorem sharpeFormula_w :
    2 ≤ ([(0 : ℝ), 1]).length ∧ specStdDev [(0 : ℝ), 1] ≠ 0 ∧
      calculateSharpeRatio ([(0 : ℝ), 1].map JsNum.fin)
        = JsNum.fin (specSharpe [(0 : ℝ), 1]) := by
  have hsd : specStdDev [(0 : ℝ), 1] ≠ 0 := by
    have hv : 0 < specVariance [(0 : ℝ), 1] :=
      specVariance_pos _ (by norm_num) ⟨0, by simp, 1, by simp, by norm_num⟩
    exact (Real.sqrt_pos.mpr hv).ne'
  exact ⟨by norm_num, hsd,
    (sharpeFormula_thm [(0 : ℝ), 1]).2.2 (by norm_num) hsd⟩

/-- C6: on every non-decreasing sequence of numeric values (zeros and
negative values included) calculateMaxDrawdown returns exactly 0. -/
theorem monotoneDrawdown_thm (l : List ℝ)
    (h : List.Chain' (fun a b => a ≤ b) l) :
    calculateMaxDrawdown (l.map JsNum.fin) = JsNum.fin 0 := by
  cases l with
  | nil => rfl
  | cons v t =>
      show (mddLoop ((v :: t).map JsNum.fin) (JsNum.fin v)
        (JsNum.fin 0)).mul (JsNum.fin 100) = JsNum.fin 0
      rw [mddLoop_monotone (v :: t) v h (by
        intro x hx
        simp only [List.head?_cons, Option.mem_def, Option.some.injEq] at hx
        exact le_of_eq hx)]
      simp

/-- C6, witness at the non-decreasing sequence [-1, 0, 0, 3]. -/
theorem monotoneDrawdown_w :
    calculateMaxDrawdown ([(-1 : ℝ), 0, 0, 3].map JsNum.fin) = JsNum.fin 0 := by
  apply monotoneDrawdown_thm
  norm_num [List.chain'_cons, List.chain'_singleton]

/-- C7: two finite returns sequences of length at least 2 with the same
arithmetic mean and the same multiset of negative elements give the same
value of calculateSortinoRatio. -/
theorem sortinoUpsideInvariance_thm (l1 l2 : List ℝ)
    (h1 : 2 ≤ l1.length) (h2 : 2 ≤ l2.length)
    (hmean : specMean l1 = specMean l2)
    (hperm : List.Perm (negFilter l1) (negFilter l2)) :
    calculateSortinoRatio (l1.map JsNum.fin)
      = calculateSortinoRatio (l2.map JsNum.fin) := by
  by_cases hnil : negFilter l1 = []
  · have hnil2 : negFilter l2 = [] := (hnil ▸ hperm).symm.eq_nil
    rw [sortino_of_no_downside l1 hnil, sortino_of_no_downside l2 hnil2]
  · have hnil2 : negFilter l2 ≠ [] := fun h => hnil (h ▸ hperm).eq_nil
    have hdd : downsideDev l1 = downsideDev l2 := by
      simp only [downsideDev]
      rw [hperm.length_eq, (hperm.map _).sum_eq]
    have hss : specSortino l1 = specSortino l2 := by
      simp only [specSortino]
      rw [hmean, hdd]
    rw [sortino_eval l1 h1 hnil, sortino_eval l2 h2 hnil2, hdd, hss]

/-- C7, witness: [-1, 1] and [-1, 1/2, 1/2] share mean 0 and negative
part [-1]. -/
theorem sortinoUpsideInvariance_w :
    calculateSortinoRatio ([(-1 : ℝ), 1].map JsNum.fin)
      = calculateSortinoRatio ([(-1 : ℝ), 1/2, 1/2].map JsNum.fin) := by
  apply sortinoUpsideInvariance_thm
  · norm_num
  · norm_num
  · norm_num [specMean]
  · have e1 : negFilter [(-1 : ℝ), 1] = [(-1 : ℝ)] := by
      norm_num [negFilter]
    have e2 : negFilter [(-1 : ℝ), 1/2, 1/2] = [(-1 : ℝ)] := by
      norm_num [negFilter]
    rw [e1, e2]

/-- C8: degenerate denominators give 0: a constant 3-element sequence in
calculateSharpeRatio, a sequence without negative elements in
calculateSortinoRatio, and a zero max drawdown in calculateCalmarRatio. -/
theorem degenerateGuards_thm :
    (∀ r : ℝ, calculateSharpeRatio [JsNum.fin r, JsNum.fin r, JsNum.fin r]
        = JsNum.fin 0) ∧
    (∀ l : List ℝ, (∀ x ∈ l, 0 ≤ x) →
        calculateSortinoRatio (l.map JsNum.fin) = JsNum.fin 0) ∧
    (∀ x : JsNum, calculateCalmarRatio x (JsNum.fin 0) = JsNum.fin 0) := by
  refine ⟨?_, ?_, ?_⟩
  · intro r
    have hm : specMean [r, r, r] = r := by
      simp only [specMean, List.sum_cons, List.sum_nil, List.length_cons,
        List.length_nil]
      push_cast
      ring_nf
    have hv : specVariance [r, r, r] = 0 := by
      simp [specVariance, hm]
    rw [show [JsNum.fin r, JsNum.fin r, JsNum.fin r]
        = [r, r, r].map JsNum.fin from rfl,
      sharpe_eval [r, r, r] (by norm_num)]
    rw [if_pos (by rw [specStdDev, hv, Real.sqrt_zero])]
  · intro l hl
    exact sortino_of_no_downside l (negFilter_eq_nil l hl)
  · intro x
    simp [calculateCalmarRatio]

/-- C8, witness at r = 2, the sequence [1, 2] and x = Infinity. -/
theorem degenerateGuards_w :
    calculateSharpeRatio [JsNum.fin 2, JsNum.fin 2, JsNum.fin 2]
        = JsNum.fin 0 ∧
    calculateSortinoRatio ([(1 : ℝ), 2].map JsNum.fin) = JsNum.fin 0 ∧
    calculateCalmarRatio JsNum.inf (JsNum.fin 0) = JsNum.fin 0 := by
  refine ⟨degenerateGuards_thm.1 2, degenerateGuards_thm.2.1 [1, 2] ?_,
    degenerateGuards_thm.2.2 JsNum.inf⟩
  intro x hx
  rcases List.mem_cons.mp hx with rfl | hx
  · norm_num
  · rcases List.mem_cons.mp hx with rfl | hx
    · norm_num
    · simp at hx

/-- C9: for every entity id and every input series the max_drawdown field
of the record returned by calculateTeamMetrics is a finite value that is
at least 0, even though the division by the running peak inside
calculateMaxDrawdown is unguarded (a zero peak produces Infinity or NaN,
which the final finiteness guard replaces by 0). -/
theorem drawdownNonnegFinite_thm (teamId : String)
    (history : List HistoryPoint) :
    ∃ a : ℝ, 0 ≤ a ∧
      (calculateTeamMetrics teamId history).max_drawdown = JsNum.fin a := by
  simp only [calculateTeamMetrics]
  by_cases hA : history.length < 2
  · rw [if_pos hA]
    exact ⟨0, le_refl 0, rfl⟩
  · rw [if_neg hA]
    by_cases hB :
        ((history.map HistoryPoint.value).filter JsNum.isFinite).length < 2
    · rw [if_pos hB]
      exact ⟨0, le_refl 0, rfl⟩
    · rw [if_neg hB]
      rcases calculateMaxDrawdown_NNI
          ((history.map HistoryPoint.value).filter JsNum.isFinite) with
        h | ⟨a, ha, h⟩
      · refine ⟨0, le_refl 0, ?_⟩
        show (if (calculateMaxDrawdown _).isFinite = true
          then calculateMaxDrawdown _ else JsNum.fin 0) = JsNum.fin 0
        rw [h]
        rfl
      · refine ⟨a, ha, ?_⟩
        show (if (calculateMaxDrawdown _).isFinite = true
          then calculateMaxDrawdown _ else JsNum.fin 0) = JsNum.fin a
        rw [h]
        rfl

/-- C10: on a finite returns sequence with at least 2 elements and at
least one negative element the downside deviation is strictly positive, so
the zero-denominator early return of calculateSortinoRatio is unreachable
and the function returns the annualized mean divided by the annualized
downside deviation. -/
theorem sortinoDownsidePositive_thm (l : List ℝ) (h2 : 2 ≤ l.length)
    (hneg : ∃ x ∈ l, x < 0) :
    0 < downsideDev l ∧
      calculateSortinoRatio (l.map JsNum.fin) = JsNum.fin (specSortino l) := by
  have hne : negFilter l ≠ [] := by
    rcases hneg with ⟨x, hx, hxneg⟩
    intro h
    have hmem : x ∈ negFilter l := (mem_negFilter l x).mpr ⟨hx, hxneg⟩
    rw [h] at hmem
    simp at hmem
  have hpos := downsideDev_pos l hne
  refine ⟨hpos, ?_⟩
  rw [sortino_eval l h2 hne, if_neg hpos.ne']

/-- C10, witness at the sequence [-1, 1]. -/
theorem sortinoDownsidePositive_w :
    0 < downsideDev [(-1 : ℝ), 1] ∧
      calculateSortinoRatio ([(-1 : ℝ), 1].map JsNum.fin)
        = JsNum.fin (specSortino [(-1 : ℝ), 1]) :=
  sortinoDownsidePositive_thm [(-1 : ℝ), 1] (by norm_num)
    ⟨-1, by simp, by norm_num⟩

end
